import Mathlib

/-!
Verification of the functional core of `todo.py`, a JSON-backed command-line
task tracker.  Python strings are modelled as `List Char` (Python strings are
sequences of code points); JSON-level nondeterminism (uuid-generated ids, the
clock) is passed explicitly through an `Env`.  Machine-level details that the
program never relies on (byte encodings, float times) do not appear: the code
only uses integer timestamps and code-point string operations.
-/

namespace Todo

/-- Python strings, modelled as their sequence of code points. -/
abbrev Str := List Char

/-- Python `" ".join(parts)`. -/
def joinSpace (parts : List Str) : Str := List.intercalate [' '] parts

/-- Python `str.strip()`: remove leading and trailing whitespace. -/
def strip (s : Str) : Str :=
  ((s.dropWhile Char.isWhitespace).reverse.dropWhile Char.isWhitespace).reverse

/-- Python `str.lower()` (ASCII case folding, which is all the program uses). -/
def lower (s : Str) : Str := s.map Char.toLower

/-- Python `needle in hay` substring test. -/
def containsSub (hay needle : Str) : Bool :=
  (List.range (hay.length + 1)).any (fun i => needle.isPrefixOf (hay.drop i))

/-- Python `s.startswith(pre)`. -/
def startsWith (s pre : Str) : Bool := pre.isPrefixOf s

/-! ## Dates

`datetime.date` values.  `todo.py` stores dates as ISO `YYYY-MM-DD` strings and
parses them with `datetime.date.fromisoformat`, which accepts exactly the
zero-padded ten-character form with a valid year/month/day. -/

def isLeap (y : Nat) : Bool := (y % 4 == 0 && y % 100 != 0) || y % 400 == 0

def daysInMonth (y m : Nat) : Nat :=
  if m = 2 then (if isLeap y then 29 else 28)
  else if m = 4 ∨ m = 6 ∨ m = 9 ∨ m = 11 then 30
  else 31

structure Date where
  year : Nat
  month : Nat
  day : Nat
deriving DecidableEq

/-- Comparison of `datetime.date` values. -/
def Date.ltb (a b : Date) : Bool :=
  a.year < b.year ∨ (a.year = b.year ∧
    (a.month < b.month ∨ (a.month = b.month ∧ a.day < b.day)))

def digitVal (c : Char) : Nat := c.toNat - 48

/-- Value of a fixed-width decimal digit string. -/
def digitsVal : Str → Nat
  | [] => 0
  | c :: cs => digitVal c * 10 ^ cs.length + digitsVal cs

def allDigits (s : Str) : Bool := s.all Char.isDigit

/-- Function `datetime.date.fromisoformat`: accepts exactly `YYYY-MM-DD` with a valid
calendar date (year at least 1), returning `none` where Python raises
`ValueError`. -/
def fromisoformat (s : Str) : Option Date :=
  match s with
  | [y1, y2, y3, y4, h1, m1, m2, h2, d1, d2] =>
    if h1 = '-' ∧ h2 = '-' ∧ allDigits [y1, y2, y3, y4, m1, m2, d1, d2] then
      let y := digitsVal [y1, y2, y3, y4]
      let m := digitsVal [m1, m2]
      let d := digitsVal [d1, d2]
      if 1 ≤ y ∧ 1 ≤ m ∧ m ≤ 12 ∧ 1 ≤ d ∧ d ≤ daysInMonth y m then
        some ⟨y, m, d⟩
      else none
    else none
  | _ => none

/-- Left-pad the decimal form of `n` with zeros to the given width. -/
def padNat (width n : Nat) : Str :=
  let s := (Nat.toDigits 10 n)
  List.replicate (width - s.length) '0' ++ s

/-- Python `date.isoformat()`. -/
def Date.iso (d : Date) : Str :=
  padNat 4 d.year ++ '-' :: padNat 2 d.month ++ '-' :: padNat 2 d.day

/-- Python `today + timedelta(days=1)`. -/
def Date.next (d : Date) : Date :=
  if d.day < daysInMonth d.year d.month then ⟨d.year, d.month, d.day + 1⟩
  else if d.month < 12 then ⟨d.year, d.month + 1, 1⟩
  else ⟨d.year + 1, 1, 1⟩

/-! ## Task model -/

/-- A task record as stored in `tasks.json`.  The store performs no per-field
validation, so `priority` is an arbitrary string and `due` an arbitrary
optional string. -/
structure Task where
  id : Str
  title : Str
  priority : Str
  due : Option Str
  completed : Bool
  created_at : Int
  completed_at : Option Int
deriving DecidableEq

/-- Tuple `PRIORITIES` from the source. -/
def PRIORITIES : List Str := ["high".toList, "normal".toList, "low".toList]

/-- Function `pri_rank`: `{"high": 0, "normal": 1, "low": 2}.get(p, 1)`. -/
def pri_rank (p : Str) : Nat :=
  if p = "high".toList then 0
  else if p = "normal".toList then 1
  else if p = "low".toList then 2
  else 1

/-- Function `find`: first task (in collection order) whose id starts with `tid`. -/
def find (items : List Task) (tid : Str) : Option Task :=
  items.find? (fun t => startsWith t.id tid)

/-- Function `is_overdue`.  On an unparseable non-empty due string the Python raises an
uncaught `ValueError`; the theorems below only use this under the data-model
hypothesis that stored due strings are valid ISO dates, where the `none`
parse branch is unreachable. -/
def is_overdue (today : Date) (due_iso : Option Str) (completed : Bool) : Bool :=
  match due_iso with
  | none => false
  | some s =>
    if s = [] ∨ completed then false
    else
      match fromisoformat s with
      | some d => Date.ltb d today
      | none => false

/-! ## Error taxonomy

Every `sys.exit(message)` and uncaught exception terminates the single-shot
process before any further effect; they are modelled as error values. -/

inductive Err
  | validationError
  | taskNotFound
  | corruptStore
  | importFileNotFound
  | invalidImportFormat
  | importJsonDecodeError
deriving DecidableEq

/-- Function `parse_date`: `None`/empty is absent, `today`/`tomorrow` are
resolved against the current date, otherwise strict ISO `YYYY-MM-DD`
(re-serialised through `isoformat`); anything else is a fatal exit. -/
def parse_date (today : Date) (s : Option Str) : Except Err (Option Str) :=
  match s with
  | none => .ok none
  | some str =>
    if str = [] then .ok none
    else if lower str = "today".toList then .ok (some today.iso)
    else if lower str = "tomorrow".toList then .ok (some today.next.iso)
    else
      match fromisoformat str with
      | some d => .ok (some d.iso)
      | none => .error .validationError

/-! ## Query engine

Python's `sorted` is a stable sort on the key tuples; key tuples compare
lexicographically.  The keys are modelled with `Lex` products, and a stable
sort (`List.insertionSort`) is used: any two stable sorts under the same total
preorder produce the same list.  Sorting `created_at` descending with
`reverse=True` (stable descending in CPython) coincides with a stable
ascending sort on the negated timestamp. -/

/-- Sentinel `"9999-99-99"` substituted by `t.get("due") or "9999-99-99"`,
which also replaces a falsy (empty) due string. -/
def dueKey (d : Option Str) : Str :=
  match d with
  | none => "9999-99-99".toList
  | some s => if s = [] then "9999-99-99".toList else s

/-- Sort key `(pri_rank(t["priority"]), t.get("due") or "9999-99-99", -t["created_at"])`. -/
def priorityKey (t : Task) : Lex (Nat × Lex (Str × Int)) :=
  toLex (pri_rank t.priority, toLex (dueKey t.due, -t.created_at))

/-- Sort key `(t.get("due") or "9999-99-99", pri_rank(t["priority"]), -t["created_at"])`. -/
def dueModeKey (t : Task) : Lex (Str × Lex (Nat × Int)) :=
  toLex (dueKey t.due, toLex (pri_rank t.priority, -t.created_at))

/-- Sort key for the default `created` mode (descending creation time). -/
def createdKey (t : Task) : Int := -t.created_at

def priLe (a b : Task) : Prop := priorityKey a ≤ priorityKey b

def dueModeLe (a b : Task) : Prop := dueModeKey a ≤ dueModeKey b

def createdLe (a b : Task) : Prop := createdKey a ≤ createdKey b

instance : DecidableRel priLe :=
  fun a b => inferInstanceAs (Decidable (priorityKey a ≤ priorityKey b))

instance : DecidableRel dueModeLe :=
  fun a b => inferInstanceAs (Decidable (dueModeKey a ≤ dueModeKey b))

instance : DecidableRel createdLe :=
  fun a b => inferInstanceAs (Decidable (createdKey a ≤ createdKey b))

instance : IsTotal Task priLe := ⟨fun a b => le_total (priorityKey a) (priorityKey b)⟩

instance : IsTrans Task priLe := ⟨fun _ _ _ h1 h2 => le_trans h1 h2⟩

instance : IsTotal Task dueModeLe := ⟨fun a b => le_total (dueModeKey a) (dueModeKey b)⟩

instance : IsTrans Task dueModeLe := ⟨fun _ _ _ h1 h2 => le_trans h1 h2⟩

instance : IsTotal Task createdLe := ⟨fun a b => le_total (createdKey a) (createdKey b)⟩

instance : IsTrans Task createdLe := ⟨fun _ _ _ h1 h2 => le_trans h1 h2⟩

/-- Filter pipeline of `filtered_sorted`: completion filter, then text query,
then the overdue filter. -/
def applyFilters (today : Date) (items : List Task) (shw q : Str) (overdue_only : Bool) :
    List Task :=
  let items1 :=
    if shw = "active".toList then items.filter (fun t => !t.completed)
    else if shw = "completed".toList then items.filter (fun t => t.completed)
    else items
  let items2 :=
    if q ≠ [] then items1.filter (fun t => containsSub (lower t.title) (lower q))
    else items1
  if overdue_only then items2.filter (fun t => is_overdue today t.due t.completed)
  else items2

/-- Sort phase of `filtered_sorted`, selected by `sort_key`. -/
def sortPhase (items : List Task) (sort_key : Str) : List Task :=
  if sort_key = "priority".toList then items.insertionSort priLe
  else if sort_key = "due".toList then items.insertionSort dueModeLe
  else items.insertionSort createdLe

/-- Function `filtered_sorted(items, show, q, sort_key, reverse, overdue_only)`. -/
def filtered_sorted (today : Date) (items : List Task) (shw q sort_key : Str)
    (reverse : Bool) (overdue_only : Bool) : List Task :=
  let fs := applyFilters today items shw q overdue_only
  let srt := sortPhase fs sort_key
  if reverse then srt.reverse else srt

/-! ## Task store -/

/-- Decoded content of the backing file when it holds valid JSON: either a
JSON array of task records or some other JSON value. -/
inductive StoreDoc
  | arr (items : List Task)
  | nonArray

/-- State of the backing `tasks.json` file as `load` observes it. -/
inductive StoreFileState
  | missing
  | notJson
  | validJson (doc : StoreDoc)

/-- Result of `load`: either a collection, or the fatal corrupt-store exit. -/
inductive LoadResult
  | ok (items : List Task)
  | corrupt
deriving DecidableEq

/-- Function `load`: empty when the file is missing, the decoded list when the
file decodes to a JSON list, the empty list when it decodes to any other JSON
value, and the fatal corrupt-store exit only on a `json.JSONDecodeError`. -/
def load : StoreFileState → LoadResult
  | .missing => .ok []
  | .notJson => .corrupt
  | .validJson (.arr items) => .ok items
  | .validJson .nonArray => .ok []

/-! ## Import -/

/-- A record of the import file; every field may be absent.  The `id` field is
present in the file but never read by `cmd_import`. -/
structure ImportRecord where
  id : Option Str
  title : Option Str
  priority : Option Str
  due : Option Str
  completed : Option Bool
  created_at : Option Int
  completed_at : Option Int
deriving DecidableEq

inductive ImportDoc
  | arr (records : List ImportRecord)
  | nonArray

inductive ImportFileState
  | missing
  | notJson
  | validJson (doc : ImportDoc)

/-- Task built from one import record: fresh id, defaulted fields. -/
def mkImported (newId : Str) (now : Int) (r : ImportRecord) : Task :=
  { id := newId
    title := r.title.getD "Untitled".toList
    priority :=
      match r.priority with
      | some p => if p ∈ PRIORITIES then p else "normal".toList
      | none => "normal".toList
    due := r.due
    completed := r.completed.getD false
    created_at := r.created_at.getD now
    completed_at := r.completed_at }

/-- Loop of `cmd_import`: one fresh id per record, in order. -/
def importTasks (fresh : Nat → Str) (now : Int) : Nat → List ImportRecord → List Task
  | _, [] => []
  | i, r :: rs => mkImported (fresh i) now r :: importTasks fresh now (i + 1) rs

/-! ## Commands -/

/-- Ambient effects of one invocation: the uuid generator (`fresh i` is the
result of the `i`-th `short_id()` call) and the clock. -/
structure Env where
  fresh : Nat → Str
  now : Int
  today : Date

structure AddArgs where
  title : List Str
  priority : Str
  due : Option Str

/-- Arguments of `cmd_list`; the `show` argument is renamed `shw` because
`show` is reserved in Lean. -/
structure ListArgs where
  shw : Str
  query : Str
  sort : Str
  reverse : Bool
  overdue : Bool

structure EditArgs where
  id : Str
  title : Option (List Str)
  priority : Option Str
  due : Option Str
  clear_due : Bool

/-- In-place mutation of the first task matching `p`, as Python's dict
mutation through the alias returned by `find` behaves. -/
def updFirst (p : Task → Bool) (f : Task → Task) : List Task → List Task
  | [] => []
  | x :: xs => if p x then f x :: xs else x :: updFirst p f xs

def markDone (n : Int) (t : Task) : Task :=
  { t with completed := true, completed_at := some n }

def markUndone (t : Task) : Task :=
  { t with completed := false, completed_at := none }

/-- Priority step of `cmd_edit` (`if args.priority:` is a truthiness test, so
an empty string is skipped). -/
def edit_priority (t : Task) (po : Option Str) : Except Err Task :=
  match po with
  | some p =>
    if p = [] then .ok t
    else if lower p ∈ PRIORITIES then .ok { t with priority := lower p }
    else .error .validationError
  | none => .ok t

/-- Mutation steps of `cmd_edit` in source order: title (no validation),
priority (validated), due (parsed), then `--clear-due`. -/
def edit_task (today : Date) (a : EditArgs) (t : Task) : Except Err Task :=
  let t1 :=
    match a.title with
    | some (w :: ws) => { t with title := strip (joinSpace (w :: ws)) }
    | _ => t
  match edit_priority t1 a.priority with
  | .error e => .error e
  | .ok t2 =>
    match a.due with
    | some dstr =>
      match parse_date today (some dstr) with
      | .error e => .error e
      | .ok d =>
        let t3 := { t2 with due := d }
        .ok (if a.clear_due then { t3 with due := none } else t3)
    | none => .ok (if a.clear_due then { t2 with due := none } else t2)

inductive Cmd
  | add (a : AddArgs)
  | done (tid : Str)
  | undo (tid : Str)
  | delete (tid : Str)
  | edit (a : EditArgs)
  | clearCompleted
  | listTasks (a : ListArgs)
  | search (a : ListArgs)
  | exportTasks
  | doImport (f : ImportFileState)

/-- One command invocation over the persisted store: the pair is the store
content after the invocation and the error it exited with, if any.  A
`sys.exit` (or uncaught exception) happens strictly before `save` in every
command, so an erroring branch leaves the persisted store untouched;
`cmd_list`, `cmd_search` and `cmd_export` never call `save` at all. -/
def run (env : Env) (c : Cmd) (store : List Task) : List Task × Option Err :=
  match c with
  | .add a =>
    let items := store
    let title := strip (joinSpace a.title)
    if title = [] then (store, some .validationError)
    else
      let p := lower a.priority
      if p ∉ PRIORITIES then (store, some .validationError)
      else
        match parse_date env.today a.due with
        | .error e => (store, some e)
        | .ok due =>
          (items ++ [{ id := env.fresh 0, title := title, priority := p, due := due,
                       completed := false, created_at := env.now, completed_at := none }],
           none)
  | .done tid =>
    match find store tid with
    | none => (store, some .taskNotFound)
    | some _ => (updFirst (fun x => startsWith x.id tid) (markDone env.now) store, none)
  | .undo tid =>
    match find store tid with
    | none => (store, some .taskNotFound)
    | some _ => (updFirst (fun x => startsWith x.id tid) markUndone store, none)
  | .delete tid =>
    match find store tid with
    | none => (store, some .taskNotFound)
    | some t => (store.filter (fun x => !(x.id = t.id)), none)
  | .edit a =>
    match find store a.id with
    | none => (store, some .taskNotFound)
    | some t =>
      match edit_task env.today a t with
      | .error e => (store, some e)
      | .ok t2 => (updFirst (fun x => startsWith x.id a.id) (fun _ => t2) store, none)
  | .clearCompleted => (store.filter (fun t => !t.completed), none)
  | .listTasks _ => (store, none)
  | .search _ => (store, none)
  | .exportTasks => (store, none)
  | .doImport f =>
    match f with
    | .missing => (store, some .importFileNotFound)
    | .notJson => (store, some .importJsonDecodeError)
    | .validJson .nonArray => (store, some .invalidImportFormat)
    | .validJson (.arr data) => (store ++ importTasks env.fresh env.now 0 data, none)

/-- Sequence of tasks displayed by `cmd_list`. -/
def cmd_list_items (env : Env) (a : ListArgs) (items : List Task) : List Task :=
  filtered_sorted env.today items a.shw a.query a.sort a.reverse a.overdue

/-- Argument rewriting performed by `cmd_search` before it delegates to
`cmd_list`. -/
def search_override (a : ListArgs) : ListArgs :=
  { a with shw := "all".toList, sort := "priority".toList, reverse := false,
           overdue := false }

/-- Sequence of tasks displayed by `cmd_search`. -/
def cmd_search_items (env : Env) (a : ListArgs) (items : List Task) : List Task :=
  cmd_list_items env (search_override a) items

/-! ## Statement-side notions

Definitions below state properties of the program; the specification text
describes orders on dates and priorities, rendered here over the embedded
data. -/

/-- Date denoted by a valid ISO due string (junk value on invalid input; only
used under a validity hypothesis). -/
def dateOf (s : Str) : Date := (fromisoformat s).getD ⟨0, 0, 0⟩

/-- Spec-side "due date ascending, missing due last": a task with a due date
precedes one without, and two due dates compare as calendar dates. -/
def specDueLT : Option Str → Option Str → Prop
  | some x, some y => Date.ltb (dateOf x) (dateOf y) = true
  | some _, none => True
  | none, _ => False

/-- Spec-side equality of due keys: both missing, or equal calendar dates. -/
def specDueEQ : Option Str → Option Str → Prop
  | some x, some y => dateOf x = dateOf y
  | none, none => True
  | _, _ => False

/-- Order claimed for `sort=priority`: priority rank ascending, then due date
ascending with missing due last, then creation time descending. -/
def claimPriOrder (a b : Task) : Prop :=
  pri_rank a.priority < pri_rank b.priority ∨
  (pri_rank a.priority = pri_rank b.priority ∧
    (specDueLT a.due b.due ∨ (specDueEQ a.due b.due ∧ b.created_at ≤ a.created_at)))

instance (a b : Option Str) : Decidable (specDueLT a b) :=
  match a, b with
  | some x, some y => inferInstanceAs (Decidable (Date.ltb (dateOf x) (dateOf y) = true))
  | some _, none => .isTrue trivial
  | none, none => .isFalse fun h => h
  | none, some _ => .isFalse fun h => h

instance (a b : Option Str) : Decidable (specDueEQ a b) :=
  match a, b with
  | some x, some y => inferInstanceAs (Decidable (dateOf x = dateOf y))
  | some _, none => .isFalse fun h => h
  | none, none => .isTrue trivial
  | none, some _ => .isFalse fun h => h

instance (a b : Task) : Decidable (claimPriOrder a b) :=
  inferInstanceAs (Decidable (_ ∨ _))

/-- A due field that the data model allows: absent, or a valid ISO date. -/
def validDue (d : Option Str) : Bool :=
  match d with
  | none => true
  | some s => (fromisoformat s).isSome

/-- Collections whose stored due strings all satisfy the data-model invariant
of being valid ISO dates. -/
def ValidDues (items : List Task) : Prop := ∀ t ∈ items, validDue t.due = true

/-- Replacement of an invalid priority string by `"normal"`; tasks with valid
priorities are untouched. -/
def normPriority (t : Task) : Task :=
  if t.priority ∈ PRIORITIES then t else { t with priority := "normal".toList }

/-! ## Concrete sample data for evaluated witnesses -/

def sampleA : Task :=
  { id := "aaaa".toList, title := "Buy milk".toList, priority := "high".toList,
    due := some "2024-01-01".toList, completed := false, created_at := 10,
    completed_at := none }

def sampleB : Task :=
  { id := "bbbb".toList, title := "Walk dog".toList, priority := "low".toList,
    due := none, completed := false, created_at := 20, completed_at := none }

def env0 : Env := { fresh := fun _ => "ffff".toList, now := 100, today := ⟨2024, 6, 1⟩ }

def editBlank : EditArgs :=
  { id := "a".toList, title := some [" ".toList], priority := none, due := none,
    clear_due := false }

def editPlain : EditArgs :=
  { id := "zz".toList, title := none, priority := none, due := none, clear_due := false }

def importRec0 : ImportRecord :=
  { id := some "zz".toList, title := some "X".toList, priority := none, due := none,
    completed := none, created_at := none, completed_at := none }

/-! ## Helper lemmas -/

/-- Characterisation of `List.find?` as the first index whose element
satisfies the predicate. -/
theorem find?_first_iff {α : Type} (p : α → Bool) (l : List α) (a : α) :
    l.find? p = some a ↔
      ∃ i : Nat, l[i]? = some a ∧ p a = true ∧
        ∀ j, j < i → ∀ b, l[j]? = some b → p b = false := by
  induction l with
  | nil => simp
  | cons x xs ih =>
    rw [List.find?_cons]
    cases hpx : p x with
    | true =>
      simp only
      constructor
      · intro h
        injection h with h
        subst h
        exact ⟨0, by simp, hpx, fun j hj b => absurd hj (Nat.not_lt_zero j)⟩
      · rintro ⟨i, hget, hpa, hearly⟩
        cases i with
        | zero => simp at hget; subst hget; rfl
        | succ n =>
          have h0 := hearly 0 (Nat.succ_pos n) x (by simp)
          rw [hpx] at h0
          exact absurd h0 (by simp)
    | false =>
      simp only
      rw [ih]
      constructor
      · rintro ⟨i, hget, hpa, hearly⟩
        refine ⟨i + 1, by simpa using hget, hpa, ?_⟩
        intro j hj b hb
        cases j with
        | zero => simp at hb; subst hb; exact hpx
        | succ k =>
          simp only [List.getElem?_cons_succ] at hb
          exact hearly k (Nat.lt_of_succ_lt_succ hj) b hb
      · rintro ⟨i, hget, hpa, hearly⟩
        cases i with
        | zero =>
          simp at hget
          subst hget
          rw [hpx] at hpa
          exact absurd hpa (by simp)
        | succ n =>
          refine ⟨n, by simpa using hget, hpa, ?_⟩
          intro j hj b hb
          exact hearly (j + 1) (Nat.succ_lt_succ hj) b (by simpa using hb)

/-- Effect of `updFirst` located at the first matching index. -/
theorem updFirst_spec (p : Task → Bool) (l : List Task) (a : Task)
    (h : l.find? p = some a) :
    ∃ i : Nat, l[i]? = some a ∧ p a = true ∧
      (∀ j, j < i → ∀ b, l[j]? = some b → p b = false) ∧
      ∀ f, updFirst p f l = l.set i (f a) := by
  induction l with
  | nil => simp [List.find?] at h
  | cons x xs ih =>
    rw [List.find?_cons] at h
    cases hpx : p x with
    | true =>
      rw [hpx] at h
      injection h with h
      subst h
      exact ⟨0, by simp, hpx, fun j hj b => absurd hj (Nat.not_lt_zero j),
        fun f => by simp [updFirst, hpx]⟩
    | false =>
      rw [hpx] at h
      obtain ⟨i, hget, hpa, hearly, hupd⟩ := ih h
      refine ⟨i + 1, by simpa using hget, hpa, ?_, ?_⟩
      · intro j hj b hb
        cases j with
        | zero => simp at hb; subst hb; exact hpx
        | succ k =>
          simp only [List.getElem?_cons_succ] at hb
          exact hearly k (Nat.lt_of_succ_lt_succ hj) b hb
      · intro f
        simp [updFirst, hpx, hupd f, List.set_cons_succ]

/-- After overwriting the first matching position with a still-matching
element, `find?` returns the new element. -/
theorem find?_set_first {α : Type} (p : α → Bool) (l : List α) (i : Nat) (b : α)
    (hi : i < l.length)
    (hearly : ∀ j, j < i → ∀ c, l[j]? = some c → p c = false)
    (hb : p b = true) :
    (l.set i b).find? p = some b := by
  induction l generalizing i with
  | nil => simp at hi
  | cons x xs ih =>
    cases i with
    | zero => simp [List.find?_cons, hb]
    | succ n =>
      have hx := hearly 0 (Nat.succ_pos n) x (by simp)
      rw [List.set_cons_succ, List.find?_cons, hx]
      exact ih n (Nat.lt_of_succ_lt_succ hi)
        (fun j hj c hc => hearly (j + 1) (Nat.succ_lt_succ hj) c (by simpa using hc))

/-- Length of the import loop's output. -/
theorem importTasks_length (fresh : Nat → Str) (now : Int) :
    ∀ (k : Nat) (data : List ImportRecord),
      (importTasks fresh now k data).length = data.length := by
  intro k data
  induction data generalizing k with
  | nil => rfl
  | cons r rs ih => simp [importTasks, ih]

/-- Element-wise description of the import loop's output. -/
theorem importTasks_getElem (fresh : Nat → Str) (now : Int) :
    ∀ (k : Nat) (data : List ImportRecord) (i : Nat) (r : ImportRecord),
      data[i]? = some r →
      (importTasks fresh now k data)[i]? = some (mkImported (fresh (k + i)) now r) := by
  intro k data
  induction data generalizing k with
  | nil => intro i r h; simp at h
  | cons x xs ih =>
    intro i r h
    cases i with
    | zero => simp at h; subst h; simp [importTasks]
    | succ n =>
      simp only [List.getElem?_cons_succ] at h
      simpa [importTasks, Nat.add_assoc, Nat.add_comm 1 n] using ih (k + 1) n r h

/-- C1 counterexample: a backing file holding valid JSON that is not an array
(for instance `{}`) makes `load` return the empty collection; it does not
fail with the corrupt-store error. -/
theorem load_nonarray_returns_empty :
    load (StoreFileState.validJson StoreDoc.nonArray) = LoadResult.ok [] ∧
    load (StoreFileState.validJson StoreDoc.nonArray) ≠ LoadResult.corrupt := by
  exact ⟨rfl, by decide⟩

/-- C1 (amended): `load` returns the empty sequence when the file is missing,
exits with the corrupt-store error exactly when the file exists but is not
decodable as JSON, returns the records of a decoded JSON array as-is, and
returns the empty sequence on any other decoded JSON value. -/
theorem load_spec :
    load StoreFileState.missing = LoadResult.ok [] ∧
    (∀ f : StoreFileState, load f = LoadResult.corrupt ↔ f = StoreFileState.notJson) ∧
    (∀ items : List Task,
      load (StoreFileState.validJson (StoreDoc.arr items)) = LoadResult.ok items) ∧
    load (StoreFileState.validJson StoreDoc.nonArray) = LoadResult.ok [] := by
  refine ⟨rfl, ?_, fun items => rfl, rfl⟩
  intro f
  cases f with
  | missing => simp [load]
  | notJson => simp [load]
  | validJson doc => cases doc <;> simp [load]

/-- C2: every operation that exits with an error does so before `save`, so
the persisted store after a failed invocation is exactly the store before
it. -/
theorem failed_op_preserves_store (env : Env) (c : Cmd) (store : List Task) :
    (run env c store).2.isSome = true → (run env c store).1 = store := by
  cases c <;> simp only [run] <;> (repeat' split) <;> simp

/-- C2 witness: deleting with a prefix matching no task fails and leaves the
store as it was. -/
theorem failed_op_preserves_store_witness :
    (run env0 (Cmd.delete "zz".toList) [sampleA]).1 = [sampleA] :=
  failed_op_preserves_store env0 (Cmd.delete "zz".toList) [sampleA] (by decide)

/-- C8: the search command produces exactly the sequence the list command
produces for `show=all`, `sort=priority`, no reverse, no overdue filter and
the same query text. -/
theorem search_equals_list (env : Env) (a : ListArgs) (items : List Task) :
    cmd_search_items env a items =
      cmd_list_items env
        { shw := "all".toList, query := a.query, sort := "priority".toList,
          reverse := false, overdue := false } items := rfl

/-- Every error raised inside `parse_date` is the date validation exit. -/
theorem parse_date_error (today : Date) (s : Option Str) (e : Err) :
    parse_date today s = .error e → e = Err.validationError := by
  unfold parse_date
  (repeat' split) <;> intro h <;>
    first
      | (injection h with h1; exact h1.symm)
      | simp at h

/-- Every error raised inside `edit_task` is a validation exit; in particular
an edit that resolved its id never reports a missing task. -/
theorem edit_task_error (today : Date) (a : EditArgs) (t : Task) (e : Err) :
    edit_task today a t = .error e → e = Err.validationError := by
  unfold edit_task edit_priority
  (repeat' split) <;> intro h <;> (try injection h with h) <;> (try subst h) <;>
    first
      | rfl
      | simp at h
      | exact parse_date_error _ _ _ (by assumption)
      | simp_all

/-- C9: the empty string is a prefix of every id, so on a non-empty
collection `find` with the empty prefix returns the first task and no
id-taking operation reports a missing task. -/
theorem find_empty_returns_head (items : List Task) (h : items ≠ []) :
    (∀ s : Str, startsWith s [] = true) ∧
    find items [] = some (items.head h) ∧
    find items [] ≠ none ∧
    (∀ env : Env,
      (run env (Cmd.done []) items).2 ≠ some Err.taskNotFound ∧
      (run env (Cmd.undo []) items).2 ≠ some Err.taskNotFound ∧
      (run env (Cmd.delete []) items).2 ≠ some Err.taskNotFound ∧
      ∀ a : EditArgs, a.id = [] →
        (run env (Cmd.edit a) items).2 ≠ some Err.taskNotFound) := by
  have hpre : ∀ s : Str, startsWith s [] = true := fun s => by cases s <;> rfl
  cases items with
  | nil => exact absurd rfl h
  | cons x xs =>
    have hfind : find (x :: xs) [] = some x := by
      simp [find, List.find?_cons, startsWith, List.isPrefixOf]
    refine ⟨hpre, by simpa using hfind, by simp [hfind], ?_⟩
    intro env
    refine ⟨?_, ?_, ?_, ?_⟩
    · simp only [run, hfind]; simp
    · simp only [run, hfind]; simp
    · simp only [run, hfind]; simp
    · intro a ha
      simp only [run, ha, hfind]
      cases he : edit_task env.today a x with
      | error e =>
        have := edit_task_error env.today a x e he
        subst this
        simp
      | ok t2 => simp

/-- C9 witness. -/
theorem find_empty_returns_head_witness :
    find [sampleA] [] ≠ none :=
  (find_empty_returns_head [sampleA] (by decide)).2.2.1

/-- C5: `find` returns the first task in collection order whose id starts
with the given prefix, and when no task's id starts with it, every id-taking
operation fails with the fatal task-not-found error, leaving the store
unchanged. -/
theorem find_first_and_not_found (items : List Task) (tid : Str) :
    (∀ t, find items tid = some t →
      ∃ i : Nat, items[i]? = some t ∧ startsWith t.id tid = true ∧
        ∀ j, j < i → ∀ b, items[j]? = some b → startsWith b.id tid = false) ∧
    (find items tid = none ↔ ∀ t ∈ items, startsWith t.id tid = false) ∧
    (find items tid = none → ∀ env : Env,
      run env (Cmd.done tid) items = (items, some Err.taskNotFound) ∧
      run env (Cmd.undo tid) items = (items, some Err.taskNotFound) ∧
      run env (Cmd.delete tid) items = (items, some Err.taskNotFound) ∧
      ∀ a : EditArgs, a.id = tid →
        run env (Cmd.edit a) items = (items, some Err.taskNotFound)) := by
  refine ⟨?_, ?_, ?_⟩
  · intro t h
    simpa using (find?_first_iff (fun x : Task => startsWith x.id tid) items t).mp h
  · rw [find, List.find?_eq_none]
    constructor
    · intro h t ht; simpa using h t ht
    · intro h t ht; simp [h t ht]
  · intro h env
    refine ⟨?_, ?_, ?_, ?_⟩
    · simp only [run, h]
    · simp only [run, h]
    · simp only [run, h]
    · intro a ha
      simp only [run, ha, h]

/-- C5 witness. -/
theorem find_first_and_not_found_witness :
    run env0 (Cmd.done "zz".toList) [sampleA] = ([sampleA], some Err.taskNotFound) :=
  ((find_first_and_not_found [sampleA] "zz".toList).2.2 (by decide) env0).1

/-- C3 counterexample: editing a task with a title argument that strips to
nothing succeeds and leaves the task with an empty title. -/
theorem edit_blank_title_succeeds :
    (run env0 (Cmd.edit editBlank) [sampleA]).2 = none ∧
    ∃ t ∈ (run env0 (Cmd.edit editBlank) [sampleA]).1, t.title = [] := by decide

/-- The priority step of `cmd_edit` never touches the title. -/
theorem edit_priority_ok_title (t : Task) (po : Option Str) (t2 : Task) :
    edit_priority t po = .ok t2 → t2.title = t.title := by
  unfold edit_priority
  (repeat' split) <;> intro h <;> (try injection h with h) <;> (try subst h) <;> simp_all

/-- C3 (amended): `add` rejects a title that is empty after trimming with a
validation error and preserves the non-empty-title invariant, but `edit`
installs the trimmed concatenation of the provided title words without any
emptiness check, so an edit can leave an empty title. -/
theorem title_validation (env : Env) (a : AddArgs) (store : List Task) :
    (strip (joinSpace a.title) = [] →
      run env (Cmd.add a) store = (store, some Err.validationError)) ∧
    ((∀ t ∈ store, t.title ≠ []) →
      ∀ t ∈ (run env (Cmd.add a) store).1, t.title ≠ []) ∧
    (∀ (today : Date) (ea : EditArgs) (t : Task) (w : Str) (ws : List Str) (t2 : Task),
      ea.title = some (w :: ws) → edit_task today ea t = Except.ok t2 →
      t2.title = strip (joinSpace (w :: ws))) := by
  refine ⟨?_, ?_, ?_⟩
  · intro h
    simp [run, h]
  · intro hstore t ht
    revert ht
    simp only [run]
    split
    · exact fun ht => hstore t ht
    · split
      · exact fun ht => hstore t ht
      · split
        · exact fun ht => hstore t ht
        · intro ht
          rcases List.mem_append.mp ht with hl | hr
          · exact hstore t hl
          · simp at hr
            subst hr
            simp only
            assumption
  · intro today ea t w ws t2 hti hok
    unfold edit_task at hok
    rw [hti] at hok
    dsimp only at hok
    cases hp : edit_priority { t with title := strip (joinSpace (w :: ws)) } ea.priority with
    | error e => rw [hp] at hok; cases hok
    | ok tp =>
      rw [hp] at hok
      dsimp only at hok
      have htp : tp.title = strip (joinSpace (w :: ws)) := by
        simpa using edit_priority_ok_title _ ea.priority tp hp
      cases hd : ea.due with
      | some dstr =>
        rw [hd] at hok
        dsimp only at hok
        cases hpd : parse_date today (some dstr) with
        | error e => rw [hpd] at hok; cases hok
        | ok d =>
          rw [hpd] at hok
          dsimp only at hok
          injection hok with hok
          subst hok
          split <;> simpa using htp
      | none =>
        rw [hd] at hok
        dsimp only at hok
        injection hok with hok
        subst hok
        split <;> simpa using htp

/-- C3 witness for the amended claim. -/
theorem title_validation_witness :
    run env0 (Cmd.add { title := ["  ".toList], priority := "normal".toList, due := none })
        [sampleA] = ([sampleA], some Err.validationError) :=
  (title_validation env0
    { title := ["  ".toList], priority := "normal".toList, due := none } [sampleA]).1
    (by decide)

/-- C6: importing a JSON array appends one task per record after the existing
tasks (which are unchanged), each with a freshly generated id taken from the
id supply and never from the record, and with absent or invalid fields
replaced by the documented defaults. -/
theorem import_appends_fresh_tasks (store : List Task) (data : List ImportRecord)
    (env : Env) :
    (run env (Cmd.doImport (ImportFileState.validJson (ImportDoc.arr data))) store).2
        = none ∧
    (run env (Cmd.doImport (ImportFileState.validJson (ImportDoc.arr data))) store).1.take
        store.length = store ∧
    (run env (Cmd.doImport (ImportFileState.validJson (ImportDoc.arr data))) store).1.length
        = store.length + data.length ∧
    (∀ (i : Nat) (r : ImportRecord), data[i]? = some r →
      (run env (Cmd.doImport (ImportFileState.validJson (ImportDoc.arr data))) store).1[store.length + i]?
          = some (mkImported (env.fresh i) env.now r)) ∧
    (∀ (newId : Str) (now : Int) (r : ImportRecord) (x : Option Str),
      mkImported newId now { r with id := x } = mkImported newId now r) ∧
    (∀ (newId : Str) (now : Int) (r : ImportRecord), (mkImported newId now r).id = newId) ∧
    (∀ (newId : Str) (now : Int) (r : ImportRecord), r.title = none →
      (mkImported newId now r).title = "Untitled".toList) ∧
    (∀ (newId : Str) (now : Int) (r : ImportRecord),
      (∀ p, r.priority = some p → p ∉ PRIORITIES) →
      (mkImported newId now r).priority = "normal".toList) ∧
    (∀ (newId : Str) (now : Int) (r : ImportRecord), r.completed = none →
      (mkImported newId now r).completed = false) ∧
    (∀ (newId : Str) (now : Int) (r : ImportRecord), r.created_at = none →
      (mkImported newId now r).created_at = now) := by
  simp only [run]
  refine ⟨by trivial, ?_, ?_, ?_, ?_, ?_, ?_, ?_, ?_, ?_⟩
  · exact List.take_left store _
  · rw [List.length_append, importTasks_length]
  · intro i r hr
    rw [List.getElem?_append_right (by omega)]
    have : store.length + i - store.length = i := by omega
    rw [this]
    simpa using importTasks_getElem env.fresh env.now 0 data i r hr
  · intro newId now r x; rfl
  · intro newId now r; rfl
  · intro newId now r h; simp [mkImported, h]
  · intro newId now r h
    cases hrp : r.priority with
    | none => simp [mkImported, hrp]
    | some p => simp [mkImported, hrp, h p hrp]
  · intro newId now r h; simp [mkImported, h]
  · intro newId now r h; simp [mkImported, h]

/-- C6 witness: importing `[{"title":"X"}]` yields a task with default
priority, not completed, carrying the freshly generated id. -/
theorem import_appends_fresh_tasks_witness :
    (run env0 (Cmd.doImport (ImportFileState.validJson (ImportDoc.arr [importRec0])))
        [sampleA]).1[1]? = some (mkImported ("ffff".toList) 100 importRec0) :=
  (import_appends_fresh_tasks [sampleA] [importRec0] env0).2.2.2.1 0 importRec0 (by decide)

/-- Overwriting the first matching position with a still-matching element
keeps `updFirst` acting at that position. -/
theorem updFirst_set (p : Task → Bool) (f : Task → Task) (l : List Task) (i : Nat)
    (b : Task) (hi : i < l.length)
    (hearly : ∀ j, j < i → ∀ c, l[j]? = some c → p c = false)
    (hb : p b = true) :
    updFirst p f (l.set i b) = (l.set i b).set i (f b) := by
  induction l generalizing i with
  | nil => simp at hi
  | cons x xs ih =>
    cases i with
    | zero => simp [updFirst, hb]
    | succ n =>
      have hx := hearly 0 (Nat.succ_pos n) x (by simp)
      simp only [List.set_cons_succ, updFirst, hx]
      rw [ih n (Nat.lt_of_succ_lt_succ hi)
        (fun j hj c hc => hearly (j + 1) (Nat.succ_lt_succ hj) c (by simpa using hc))]
      simp

/-- C7: on a task resolved by id prefix, marking done twice leaves the task
completed with the later timestamp (non-decreasing given the clock is),
reopening after completion resets the completion mark and timestamp, and both
operations touch only the completion fields of only that task. -/
theorem done_done_undo (items : List Task) (tid : Str) (t : Task) (e1 e2 : Env)
    (hf : find items tid = some t) (hn : e1.now ≤ e2.now) :
    ∃ i : Nat, items[i]? = some t ∧
      (run e1 (Cmd.done tid) items).1 = items.set i (markDone e1.now t) ∧
      (run e2 (Cmd.done tid) ((run e1 (Cmd.done tid) items).1)).1
          = items.set i (markDone e2.now t) ∧
      (run e2 (Cmd.undo tid) ((run e1 (Cmd.done tid) items).1)).1
          = items.set i (markUndone t) ∧
      (markDone e1.now t).completed = true ∧
      (markDone e1.now t).completed_at = some e1.now ∧
      (markDone e2.now t).completed = true ∧
      (markDone e2.now t).completed_at = some e2.now ∧
      e1.now ≤ e2.now ∧
      (markUndone t).completed = false ∧
      (markUndone t).completed_at = none ∧
      (∀ n : Int, (markDone n t).id = t.id ∧ (markDone n t).title = t.title ∧
        (markDone n t).priority = t.priority ∧ (markDone n t).due = t.due ∧
        (markDone n t).created_at = t.created_at) ∧
      (markUndone t).id = t.id ∧ (markUndone t).title = t.title ∧
      (markUndone t).priority = t.priority ∧ (markUndone t).due = t.due ∧
      (markUndone t).created_at = t.created_at := by
  obtain ⟨i, hget, hpa, hearly, hupd⟩ :=
    updFirst_spec (fun x : Task => startsWith x.id tid) items t hf
  have hi : i < items.length := (List.getElem?_eq_some.mp hget).1
  have hb1 : (fun x : Task => startsWith x.id tid) (markDone e1.now t) = true := hpa
  have hfind1 : find (items.set i (markDone e1.now t)) tid = some (markDone e1.now t) :=
    find?_set_first (fun x : Task => startsWith x.id tid) items i (markDone e1.now t) hi hearly hb1
  have hrun1 : (run e1 (Cmd.done tid) items).1 = items.set i (markDone e1.now t) := by
    simp only [run, hf]
    exact hupd (markDone e1.now)
  refine ⟨i, hget, hrun1, ?_, ?_, rfl, rfl, rfl, rfl, hn, rfl, rfl,
    fun n => ⟨rfl, rfl, rfl, rfl, rfl⟩, rfl, rfl, rfl, rfl, rfl⟩
  · rw [hrun1]
    simp only [run, hfind1]
    rw [updFirst_set (fun x : Task => startsWith x.id tid) (markDone e2.now) items i
      (markDone e1.now t) hi hearly hb1]
    rw [List.set_set]
    rfl
  · rw [hrun1]
    simp only [run, hfind1]
    rw [updFirst_set (fun x : Task => startsWith x.id tid) markUndone items i
      (markDone e1.now t) hi hearly hb1]
    rw [List.set_set]
    rfl

/-- C7 witness. -/
theorem done_done_undo_witness :
    ∃ i : Nat, [sampleA][i]? = some sampleA ∧
      (run env0 (Cmd.done "a".toList) [sampleA]).1
        = [sampleA].set i (markDone env0.now sampleA) :=
  let h := done_done_undo [sampleA] "a".toList sampleA env0 env0 (by decide) (by decide)
  ⟨h.choose, h.choose_spec.1, h.choose_spec.2.1⟩

/-- Normalisation does not change the completion flag. -/
theorem normPriority_completed (t : Task) : (normPriority t).completed = t.completed := by
  unfold normPriority; split <;> rfl

/-- Normalisation does not change the title. -/
theorem normPriority_title (t : Task) : (normPriority t).title = t.title := by
  unfold normPriority; split <;> rfl

/-- Normalisation does not change the due date. -/
theorem normPriority_due (t : Task) : (normPriority t).due = t.due := by
  unfold normPriority; split <;> rfl

/-- Normalisation does not change the creation time. -/
theorem normPriority_created (t : Task) : (normPriority t).created_at = t.created_at := by
  unfold normPriority; split <;> rfl

/-- Any string other than the three valid priorities gets the default rank 1. -/
theorem pri_rank_default (s : Str) (a : ¬s = "high".toList) (b : ¬s = "normal".toList)
    (c : ¬s = "low".toList) : pri_rank s = 1 := by
  unfold pri_rank
  rw [if_neg a, if_neg b, if_neg c]

/-- Normalisation does not change the priority rank. -/
theorem pri_rank_norm (t : Task) : pri_rank (normPriority t).priority = pri_rank t.priority := by
  unfold normPriority
  split
  · rfl
  · next h =>
    simp only [PRIORITIES, List.mem_cons, List.not_mem_nil, or_false, not_or] at h
    obtain ⟨h1, h2, h3⟩ := h
    show pri_rank "normal".toList = pri_rank t.priority
    rw [pri_rank_default t.priority h1 h2 h3]
    decide

/-- Normalisation preserves the priority-mode sort key. -/
theorem priorityKey_norm (t : Task) : priorityKey (normPriority t) = priorityKey t := by
  unfold priorityKey
  rw [pri_rank_norm, normPriority_due, normPriority_created]

/-- Normalisation preserves the due-mode sort key. -/
theorem dueModeKey_norm (t : Task) : dueModeKey (normPriority t) = dueModeKey t := by
  unfold dueModeKey
  rw [pri_rank_norm, normPriority_due, normPriority_created]

/-- Normalisation preserves the created-mode sort key. -/
theorem createdKey_norm (t : Task) : createdKey (normPriority t) = createdKey t := by
  unfold createdKey
  rw [normPriority_created]

/-- Filtering a mapped list, when the predicate is blind to the mapping. -/
theorem filter_norm (p : Task → Bool) (hp : ∀ t, p (normPriority t) = p t)
    (l : List Task) :
    (l.map normPriority).filter p = (l.filter p).map normPriority := by
  rw [List.filter_map]
  congr 1
  apply List.filter_congr
  intro x _
  simpa using hp x

/-- Insertion into a mapped sorted list, when the order is blind to the
mapping. -/
theorem orderedInsert_map_congr {α : Type} (r : α → α → Prop) [DecidableRel r]
    (f : α → α) (hk : ∀ a b, r (f a) (f b) ↔ r a b) (a : α) (l : List α) :
    List.orderedInsert r (f a) (l.map f) = (List.orderedInsert r a l).map f := by
  induction l with
  | nil => rfl
  | cons b bs ih =>
    simp only [List.map_cons, List.orderedInsert]
    by_cases h : r a b
    · rw [if_pos ((hk a b).mpr h), if_pos h]
      rfl
    · rw [if_neg (fun hc => h ((hk a b).mp hc)), if_neg h, List.map_cons, ih]

/-- Stable sorting of a mapped list, when the order is blind to the mapping. -/
theorem insertionSort_map_congr {α : Type} (r : α → α → Prop) [DecidableRel r]
    (f : α → α) (hk : ∀ a b, r (f a) (f b) ↔ r a b) (l : List α) :
    List.insertionSort r (l.map f) = (List.insertionSort r l).map f := by
  induction l with
  | nil => rfl
  | cons a bs ih =>
    simp only [List.map_cons, List.insertionSort]
    rw [ih, orderedInsert_map_congr r f hk a]

/-- The filter pipeline is blind to priority normalisation. -/
theorem applyFilters_norm (today : Date) (items : List Task) (shw q : Str) (od : Bool) :
    applyFilters today (items.map normPriority) shw q od
      = (applyFilters today items shw q od).map normPriority := by
  have h1 : ∀ l : List Task, (l.map normPriority).filter (fun t => !t.completed)
      = (l.filter (fun t => !t.completed)).map normPriority :=
    filter_norm _ (fun t => by rw [normPriority_completed])
  have h2 : ∀ l : List Task, (l.map normPriority).filter (fun t => t.completed)
      = (l.filter (fun t => t.completed)).map normPriority :=
    filter_norm _ (fun t => by rw [normPriority_completed])
  have h3 : ∀ l : List Task,
      (l.map normPriority).filter (fun t => containsSub (lower t.title) (lower q))
      = (l.filter (fun t => containsSub (lower t.title) (lower q))).map normPriority :=
    filter_norm _ (fun t => by rw [normPriority_title])
  have h4 : ∀ l : List Task,
      (l.map normPriority).filter (fun t => is_overdue today t.due t.completed)
      = (l.filter (fun t => is_overdue today t.due t.completed)).map normPriority :=
    filter_norm _ (fun t => by rw [normPriority_due, normPriority_completed])
  simp only [applyFilters]
  split_ifs <;> simp only [h1, h2, h3, h4]

/-- The sort phase is blind to priority normalisation. -/
theorem sortPhase_norm (items : List Task) (sk : Str) :
    sortPhase (items.map normPriority) sk = (sortPhase items sk).map normPriority := by
  unfold sortPhase
  split_ifs
  · exact insertionSort_map_congr priLe normPriority
      (fun a b => by unfold priLe; rw [priorityKey_norm, priorityKey_norm]) items
  · exact insertionSort_map_congr dueModeLe normPriority
      (fun a b => by unfold dueModeLe; rw [dueModeKey_norm, dueModeKey_norm]) items
  · exact insertionSort_map_congr createdLe normPriority
      (fun a b => by unfold createdLe; rw [createdKey_norm, createdKey_norm]) items

/-- C10: a priority string outside the three valid values ranks exactly like
`normal` (rank 1), and the whole query pipeline (any sort mode, filters,
reverse) treats such a task exactly as if its priority were `normal`; in
particular sorting never fails on malformed priorities. -/
theorem invalid_priority_ranks_normal (p : Str) (hp : p ∉ PRIORITIES) :
    pri_rank p = 1 ∧ pri_rank p = pri_rank "normal".toList ∧
    (∀ (today : Date) (items : List Task) (shw q sk : Str) (rev od : Bool),
      filtered_sorted today (items.map normPriority) shw q sk rev od
        = (filtered_sorted today items shw q sk rev od).map normPriority) := by
  simp only [PRIORITIES, List.mem_cons, List.not_mem_nil, or_false, not_or] at hp
  obtain ⟨h1, h2, h3⟩ := hp
  have hd : pri_rank p = 1 := pri_rank_default p h1 h2 h3
  refine ⟨hd, by rw [hd]; decide, ?_⟩
  intro today items shw q sk rev od
  simp only [filtered_sorted]
  rw [applyFilters_norm, sortPhase_norm]
  cases rev with
  | true => simp [List.map_reverse]
  | false => simp

/-- C10 witness. -/
theorem invalid_priority_ranks_normal_witness : pri_rank "urgent".toList = 1 :=
  (invalid_priority_ranks_normal "urgent".toList (by decide)).1

/-! ## Digit-string arithmetic

Python compares the due-date sort keys as strings; for the zero-padded ISO
form accepted by `fromisoformat`, lexicographic string order coincides with
calendar order.  The lemmas below establish that correspondence. -/

/-- Character order is code-point order. -/
theorem char_lt_iff_toNat (c d : Char) : c < d ↔ c.toNat < d.toNat :=
  Char.lt_iff_val_lt_val

/-- Characters are equal exactly when their code points are. -/
theorem char_eq_iff_toNat (c d : Char) : c = d ↔ c.toNat = d.toNat :=
  ⟨fun h => by rw [h], fun h => Char.eq_of_val_eq (UInt32.ext h)⟩

/-- Code-point bounds of an ASCII digit. -/
theorem char_digit_bounds (c : Char) (h : c.isDigit = true) :
    48 ≤ c.toNat ∧ c.toNat ≤ 57 := by
  simp [Char.isDigit] at h
  exact ⟨h.1, h.2⟩

/-- A digit's value is at most 9. -/
theorem digitVal_le_9 (c : Char) (h : c.isDigit = true) : digitVal c ≤ 9 := by
  have hb := char_digit_bounds c h
  unfold digitVal
  omega

/-- Digit characters compare as their values. -/
theorem char_lt_iff_digitVal (c d : Char) (hc : c.isDigit = true) (hd : d.isDigit = true) :
    c < d ↔ digitVal c < digitVal d := by
  rw [char_lt_iff_toNat]
  have h1 := char_digit_bounds c hc
  have h2 := char_digit_bounds d hd
  unfold digitVal
  omega

/-- Digit characters are equal exactly when their values are. -/
theorem char_eq_iff_digitVal (c d : Char) (hc : c.isDigit = true) (hd : d.isDigit = true) :
    c = d ↔ digitVal c = digitVal d := by
  rw [char_eq_iff_toNat]
  have h1 := char_digit_bounds c hc
  have h2 := char_digit_bounds d hd
  unfold digitVal
  omega

/-- A digit string's value is below the power of ten of its width. -/
theorem digitsVal_lt_pow (l : Str) (h : allDigits l = true) :
    digitsVal l < 10 ^ l.length := by
  induction l with
  | nil => simp [digitsVal]
  | cons c cs ih =>
    simp only [allDigits, List.all_cons, Bool.and_eq_true] at h
    have h9 : digitVal c ≤ 9 := digitVal_le_9 c h.1
    have hr : digitsVal cs < 10 ^ cs.length := ih h.2
    have hm : digitVal c * 10 ^ cs.length ≤ 9 * 10 ^ cs.length :=
      Nat.mul_le_mul_right _ h9
    simp only [digitsVal, List.length_cons, pow_succ]
    omega

/-- Lexicographic comparison of one place against the rest of the number. -/
theorem block_lt_iff (P x y A B : Nat) (hx : x < P) (hy : y < P) :
    (A * P + x < B * P + y) ↔ (A < B ∨ (A = B ∧ x < y)) := by
  constructor
  · intro h
    rcases Nat.lt_trichotomy A B with h1 | h1 | h1
    · exact Or.inl h1
    · subst h1
      exact Or.inr ⟨rfl, by omega⟩
    · exfalso
      have hm : (B + 1) * P ≤ A * P := Nat.mul_le_mul_right P h1
      rw [Nat.succ_mul] at hm
      omega
  · intro h
    rcases h with h1 | ⟨h1, h2⟩
    · have hm : (A + 1) * P ≤ B * P := Nat.mul_le_mul_right P h1
      rw [Nat.succ_mul] at hm
      omega
    · subst h1
      omega

/-- Place/remainder decomposition is injective. -/
theorem block_eq_iff (P x y A B : Nat) (hx : x < P) (hy : y < P) :
    (A * P + x = B * P + y) ↔ (A = B ∧ x = y) := by
  constructor
  · intro h
    rcases Nat.lt_trichotomy A B with h1 | h1 | h1
    · have hm : (A + 1) * P ≤ B * P := Nat.mul_le_mul_right P h1
      rw [Nat.succ_mul] at hm
      omega
    · subst h1
      exact ⟨rfl, by omega⟩
    · have hm : (B + 1) * P ≤ A * P := Nat.mul_le_mul_right P h1
      rw [Nat.succ_mul] at hm
      omega
  · rintro ⟨rfl, rfl⟩
    rfl

/-- Head/tail case split for the lexicographic order. -/
theorem lex_cons_iff2 {α : Type} (r : α → α → Prop) (a b : α) (l1 l2 : List α) :
    List.Lex r (a :: l1) (b :: l2) ↔ r a b ∨ (a = b ∧ List.Lex r l1 l2) := by
  constructor
  · intro h
    cases h with
    | cons h => exact Or.inr ⟨rfl, h⟩
    | rel h => exact Or.inl h
  · rintro (h | ⟨rfl, h⟩)
    · exact List.Lex.rel h
    · exact List.Lex.cons h

/-- Lexicographic order on appends of equal-length blocks. -/
theorem lex_append_iff {α : Type} (r : α → α → Prop) :
    ∀ (s1 s2 u1 u2 : List α), s1.length = s2.length →
      (List.Lex r (s1 ++ u1) (s2 ++ u2) ↔
        (List.Lex r s1 s2 ∨ (s1 = s2 ∧ List.Lex r u1 u2))) := by
  intro s1
  induction s1 with
  | nil =>
    intro s2 u1 u2 hlen
    cases s2 with
    | nil =>
      simp only [List.nil_append]
      constructor
      · intro h
        exact Or.inr ⟨by trivial, h⟩
      · rintro (h | ⟨_, h⟩)
        · cases h
        · exact h
    | cons b t2 => simp at hlen
  | cons a t1 ih =>
    intro s2 u1 u2 hlen
    cases s2 with
    | nil => simp at hlen
    | cons b t2 =>
      simp only [List.cons_append]
      rw [lex_cons_iff2, lex_cons_iff2, ih t2 u1 u2 (by simpa using hlen)]
      constructor
      · rintro (h | ⟨rfl, (h | ⟨rfl, h⟩)⟩)
        · exact Or.inl (Or.inl h)
        · exact Or.inl (Or.inr ⟨rfl, h⟩)
        · exact Or.inr ⟨rfl, h⟩
      · rintro ((h | ⟨rfl, h⟩) | ⟨heq, h⟩)
        · exact Or.inl h
        · exact Or.inr ⟨rfl, Or.inl h⟩
        · injection heq with h1 h2
          subst h1
          subst h2
          exact Or.inr ⟨rfl, Or.inr ⟨rfl, h⟩⟩

/-- Equal-width digit strings compare, and equate, as their values. -/
theorem lex_digits_iff :
    ∀ (l1 l2 : Str), l1.length = l2.length → allDigits l1 = true → allDigits l2 = true →
      ((List.Lex (· < ·) l1 l2 ↔ digitsVal l1 < digitsVal l2) ∧
        (l1 = l2 ↔ digitsVal l1 = digitsVal l2)) := by
  intro l1
  induction l1 with
  | nil =>
    intro l2 hlen _ _
    cases l2 with
    | nil =>
      refine ⟨⟨(fun h => by cases h), (fun h => by simp [digitsVal] at h)⟩, ?_⟩
      simp [digitsVal]
    | cons d ds => simp at hlen
  | cons c cs ih =>
    intro l2 hlen h1 h2
    cases l2 with
    | nil => simp at hlen
    | cons d ds =>
      simp only [allDigits, List.all_cons, Bool.and_eq_true] at h1 h2
      have hlen2 : cs.length = ds.length := by simpa using hlen
      obtain ⟨iha, ihb⟩ := ih ds hlen2 h1.2 h2.2
      have hcs : digitsVal cs < 10 ^ cs.length := digitsVal_lt_pow cs h1.2
      have hds : digitsVal ds < 10 ^ cs.length := by
        rw [hlen2]
        exact digitsVal_lt_pow ds h2.2
      constructor
      · rw [lex_cons_iff2, char_lt_iff_digitVal c d h1.1 h2.1,
          char_eq_iff_digitVal c d h1.1 h2.1, iha]
        simp only [digitsVal, ← hlen2]
        exact (block_lt_iff (10 ^ cs.length) (digitsVal cs) (digitsVal ds)
          (digitVal c) (digitVal d) hcs hds).symm
      · rw [List.cons_eq_cons, char_eq_iff_digitVal c d h1.1 h2.1, ihb]
        simp only [digitsVal, ← hlen2]
        exact (block_eq_iff (10 ^ cs.length) (digitsVal cs) (digitsVal ds)
          (digitVal c) (digitVal d) hcs hds).symm

/-- Structure of a string accepted by `fromisoformat`. -/
theorem fromisoformat_shape (s : Str) (dt : Date) (h : fromisoformat s = some dt) :
    ∃ y1 y2 y3 y4 m1 m2 d1 d2 : Char,
      s = [y1, y2, y3, y4, '-', m1, m2, '-', d1, d2] ∧
      allDigits [y1, y2, y3, y4, m1, m2, d1, d2] = true ∧
      dt.year = digitsVal [y1, y2, y3, y4] ∧ dt.month = digitsVal [m1, m2] ∧
      dt.day = digitsVal [d1, d2] ∧
      1 ≤ dt.year ∧ 1 ≤ dt.month ∧ dt.month ≤ 12 ∧ 1 ≤ dt.day := by
  unfold fromisoformat at h
  split at h
  case h_1 y1 y2 y3 y4 h1 m1 m2 h2 d1 d2 =>
    split at h
    case isTrue hcond =>
      obtain ⟨hh1, hh2, hdig⟩ := hcond
      subst hh1
      subst hh2
      dsimp only at h
      split at h
      case isTrue hrange =>
        injection h with h
        subst h
        exact ⟨y1, y2, y3, y4, m1, m2, d1, d2, rfl, hdig, rfl, rfl, rfl,
          hrange.1, hrange.2.1, hrange.2.2.1, hrange.2.2.2.1⟩
      case isFalse => cases h
    case isFalse => cases h
  case h_2 => cases h

/-- An ASCII digit is at most `'9'`: strictly below, or equal. -/
theorem digit_lt_or_eq_nine (c : Char) (hc : c.isDigit = true) : c < '9' ∨ c = '9' := by
  have hb := char_digit_bounds c hc
  have h9 : ('9' : Char).toNat = 57 := rfl
  rcases Nat.lt_or_ge c.toNat 57 with h | h
  · left
    rw [char_lt_iff_toNat, h9]
    exact h
  · right
    rw [char_eq_iff_toNat, h9]
    omega

/-- Any string accepted by `fromisoformat` is lexicographically below the
`"9999-99-99"` sentinel (its month position cannot reach `'9'`). -/
theorem valid_lt_sentinel (s : Str) (dt : Date) (h : fromisoformat s = some dt) :
    List.Lex (· < ·) s ("9999-99-99".toList) := by
  obtain ⟨y1, y2, y3, y4, m1, m2, d1, d2, hs, hdig, hy, hm, hd, hy1, hm1, hm12, hd1⟩ :=
    fromisoformat_shape s dt h
  subst hs
  simp only [allDigits, List.all_cons, List.all_nil, Bool.and_eq_true] at hdig
  obtain ⟨dy1, dy2, dy3, dy4, dm1, dm2, dd1, dd2, -⟩ := hdig
  have hm1lt : m1 < '9' := by
    have hb1 := char_digit_bounds m1 dm1
    have hb2 := char_digit_bounds m2 dm2
    have h9 : ('9' : Char).toNat = 57 := rfl
    rw [char_lt_iff_toNat, h9]
    have hval : digitsVal [m1, m2] = digitVal m1 * 10 + digitVal m2 := by
      simp [digitsVal]
    rw [hm] at hm12
    rw [hval] at hm12
    unfold digitVal at hm12
    omega
  show List.Lex (· < ·) [y1, y2, y3, y4, '-', m1, m2, '-', d1, d2]
    ['9', '9', '9', '9', '-', '9', '9', '-', '9', '9']
  rcases digit_lt_or_eq_nine y1 dy1 with h1 | rfl
  · exact List.Lex.rel h1
  apply List.Lex.cons
  rcases digit_lt_or_eq_nine y2 dy2 with h2 | rfl
  · exact List.Lex.rel h2
  apply List.Lex.cons
  rcases digit_lt_or_eq_nine y3 dy3 with h3 | rfl
  · exact List.Lex.rel h3
  apply List.Lex.cons
  rcases digit_lt_or_eq_nine y4 dy4 with h4 | rfl
  · exact List.Lex.rel h4
  apply List.Lex.cons
  apply List.Lex.cons
  exact List.Lex.rel hm1lt

/-- For strings accepted by `fromisoformat`, lexicographic order is calendar
order of the parsed dates. -/
theorem iso_lt_iff (x y : Str) (dx dy : Date) (hx : fromisoformat x = some dx)
    (hy : fromisoformat y = some dy) :
    List.Lex (· < ·) x y ↔ Date.ltb dx dy = true := by
  obtain ⟨a1, a2, a3, a4, b1, b2, c1, c2, hxs, hxd, hxy, hxm, hxdd, -, -, -, -⟩ :=
    fromisoformat_shape x dx hx
  obtain ⟨e1, e2, e3, e4, f1, f2, g1, g2, hys, hyd, hyy, hym, hydd, -, -, -, -⟩ :=
    fromisoformat_shape y dy hy
  subst hxs
  subst hys
  simp only [allDigits, List.all_cons, List.all_nil, Bool.and_eq_true, and_true] at hxd hyd
  obtain ⟨da1, da2, da3, da4, db1, db2, dc1, dc2⟩ := hxd
  obtain ⟨de1, de2, de3, de4, df1, df2, dg1, dg2⟩ := hyd
  have hdY1 : allDigits [a1, a2, a3, a4] = true := by
    simp [allDigits, da1, da2, da3, da4]
  have hdY2 : allDigits [e1, e2, e3, e4] = true := by
    simp [allDigits, de1, de2, de3, de4]
  have hdM1 : allDigits [b1, b2] = true := by simp [allDigits, db1, db2]
  have hdM2 : allDigits [f1, f2] = true := by simp [allDigits, df1, df2]
  have hdD1 : allDigits [c1, c2] = true := by simp [allDigits, dc1, dc2]
  have hdD2 : allDigits [g1, g2] = true := by simp [allDigits, dg1, dg2]
  have split1 : ([a1, a2, a3, a4, '-', b1, b2, '-', c1, c2] : Str)
      = [a1, a2, a3, a4] ++ '-' :: ([b1, b2] ++ '-' :: [c1, c2]) := rfl
  have split2 : ([e1, e2, e3, e4, '-', f1, f2, '-', g1, g2] : Str)
      = [e1, e2, e3, e4] ++ '-' :: ([f1, f2] ++ '-' :: [g1, g2]) := rfl
  rw [split1, split2,
    lex_append_iff (· < ·) [a1, a2, a3, a4] [e1, e2, e3, e4]
      ('-' :: ([b1, b2] ++ ['-', c1, c2])) ('-' :: ([f1, f2] ++ ['-', g1, g2])) rfl,
    lex_cons_iff2 (· < ·) '-' '-' ([b1, b2] ++ ['-', c1, c2]) ([f1, f2] ++ ['-', g1, g2]),
    lex_append_iff (· < ·) [b1, b2] [f1, f2] ['-', c1, c2] ['-', g1, g2] rfl,
    lex_cons_iff2 (· < ·) '-' '-' [c1, c2] [g1, g2]]
  have hdash : ¬(('-' : Char) < '-') := lt_irrefl _
  obtain ⟨lY, eY⟩ := lex_digits_iff [a1, a2, a3, a4] [e1, e2, e3, e4] rfl hdY1 hdY2
  obtain ⟨lM, eM⟩ := lex_digits_iff [b1, b2] [f1, f2] rfl hdM1 hdM2
  obtain ⟨lD, -⟩ := lex_digits_iff [c1, c2] [g1, g2] rfl hdD1 hdD2
  rw [lY, eY, lM, eM, lD]
  simp only [Date.ltb, decide_eq_true_eq]
  rw [hxy, hxm, hxdd, hyy, hym, hydd]
  simp only [hdash, false_or, true_and, eq_self_iff_true]

/-- Strings accepted by `fromisoformat` are ten characters long, hence not
empty (so the falsy-due sentinel substitution does not fire on them). -/
theorem fromisoformat_ne_nil (s : Str) (dt : Date) (h : fromisoformat s = some dt) :
    s ≠ [] := by
  obtain ⟨y1, y2, y3, y4, m1, m2, d1, d2, hs, -⟩ := fromisoformat_shape s dt h
  subst hs
  simp

/-- Value of the due key on a non-empty present due string. -/
theorem dueKey_some (s : Str) (h : s ≠ []) : dueKey (some s) = s := by
  unfold dueKey
  dsimp only
  rw [if_neg h]

/-- A valid present due string parses to some date. -/
theorem validDue_parses (d : Option Str) (s : Str) (hd : d = some s)
    (h : validDue d = true) : ∃ dt, fromisoformat s = some dt := by
  unfold validDue at h
  rw [hd] at h
  exact Option.isSome_iff_exists.mp h

/-- The comparator used by the priority sort implies the claimed order, on
tasks whose due fields satisfy the data-model invariant. -/
theorem priLe_claimOrder (a b : Task) (ha : validDue a.due = true)
    (hb : validDue b.due = true) (h : priLe a b) : claimPriOrder a b := by
  unfold priLe priorityKey at h
  rw [Prod.Lex.le_iff] at h
  dsimp only at h
  cases h with
  | inl hlt => exact Or.inl hlt
  | inr hp =>
    obtain ⟨heq, hinner⟩ := hp
    rw [Prod.Lex.le_iff] at hinner
    dsimp only at hinner
    refine Or.inr ⟨heq, ?_⟩
    cases hinner with
    | inl hdlt =>
      left
      cases hadue : a.due with
      | none =>
        cases hbdue : b.due with
        | none =>
          rw [hadue, hbdue] at hdlt
          exact absurd hdlt (lt_irrefl _)
        | some y =>
          obtain ⟨dy, hdy⟩ := validDue_parses b.due y hbdue hb
          rw [hadue, hbdue, dueKey_some y (fromisoformat_ne_nil y dy hdy)] at hdlt
          exact absurd (valid_lt_sentinel y dy hdy) (lt_asymm hdlt)
      | some x =>
        obtain ⟨dx, hdx⟩ := validDue_parses a.due x hadue ha
        cases hbdue : b.due with
        | none => exact trivial
        | some y =>
          obtain ⟨dy, hdy⟩ := validDue_parses b.due y hbdue hb
          rw [hadue, hbdue, dueKey_some x (fromisoformat_ne_nil x dx hdx),
            dueKey_some y (fromisoformat_ne_nil y dy hdy)] at hdlt
          show Date.ltb (dateOf x) (dateOf y) = true
          have hdox : dateOf x = dx := by simp [dateOf, hdx]
          have hdoy : dateOf y = dy := by simp [dateOf, hdy]
          rw [hdox, hdoy]
          exact (iso_lt_iff x y dx dy hdx hdy).mp hdlt
    | inr hde =>
      obtain ⟨hdeq, hcle⟩ := hde
      right
      refine ⟨?_, by omega⟩
      cases hadue : a.due with
      | none =>
        cases hbdue : b.due with
        | none => exact trivial
        | some y =>
          obtain ⟨dy, hdy⟩ := validDue_parses b.due y hbdue hb
          rw [hadue, hbdue, dueKey_some y (fromisoformat_ne_nil y dy hdy)] at hdeq
          exact absurd hdeq.symm (ne_of_lt (valid_lt_sentinel y dy hdy))
      | some x =>
        obtain ⟨dx, hdx⟩ := validDue_parses a.due x hadue ha
        cases hbdue : b.due with
        | none =>
          rw [hadue, hbdue, dueKey_some x (fromisoformat_ne_nil x dx hdx)] at hdeq
          exact absurd hdeq (ne_of_lt (valid_lt_sentinel x dx hdx))
        | some y =>
          rw [hadue, hbdue] at hdeq
          obtain ⟨dy, hdy⟩ := validDue_parses b.due y hbdue hb
          rw [dueKey_some x (fromisoformat_ne_nil x dx hdx),
            dueKey_some y (fromisoformat_ne_nil y dy hdy)] at hdeq
          show dateOf x = dateOf y
          rw [hdeq]

/-- Every task surviving the filter pipeline comes from the input
collection. -/
theorem applyFilters_subset (today : Date) (items : List Task) (shw q : Str) (od : Bool) :
    ∀ t ∈ applyFilters today items shw q od, t ∈ items := by
  intro t ht
  simp only [applyFilters] at ht
  split_ifs at ht <;> (try simp only [List.mem_filter] at ht) <;> tauto

/-- C4: with `sort=priority` (and no reverse), the displayed sequence is a
permutation of the filtered tasks ordered by priority rank ascending, then
due date ascending with missing dues after all present ones, then creation
time descending — for collections whose due fields satisfy the data-model
invariant of being valid ISO dates. -/
theorem priority_sort_ordered (today : Date) (items : List Task) (shw q : Str)
    (od : Bool) (hv : ValidDues items) :
    List.Pairwise claimPriOrder
      (filtered_sorted today items shw q "priority".toList false od) ∧
    (filtered_sorted today items shw q "priority".toList false od).Perm
      (applyFilters today items shw q od) := by
  have hfs : filtered_sorted today items shw q "priority".toList false od
      = List.insertionSort priLe (applyFilters today items shw q od) := by
    simp [filtered_sorted, sortPhase]
  rw [hfs]
  constructor
  · have hsorted := List.sorted_insertionSort priLe (applyFilters today items shw q od)
    have hsub : ∀ t ∈ List.insertionSort priLe (applyFilters today items shw q od),
        t ∈ items :=
      fun t ht => applyFilters_subset today items shw q od t
        ((List.perm_insertionSort priLe _).mem_iff.mp ht)
    exact List.Pairwise.imp_of_mem
      (fun hma hmb hr => priLe_claimOrder _ _ (hv _ (hsub _ hma)) (hv _ (hsub _ hmb)) hr)
      hsorted
  · exact List.perm_insertionSort priLe _

/-- C4 witness: the spec's concrete scenario, a high-priority dated task
before a low-priority undated one. -/
theorem priority_sort_ordered_witness :
    List.Pairwise claimPriOrder
      (filtered_sorted ⟨2024, 6, 1⟩ [sampleA, sampleB] "all".toList []
        "priority".toList false false) :=
  (priority_sort_ordered ⟨2024, 6, 1⟩ [sampleA, sampleB] "all".toList [] false
    (fun t ht => by fin_cases ht <;> decide)).1
